import Mathlib

/-!
Verification of the onnxruntime TimeSeriesImputerTransformer kernel
(onnxruntime/featurizers_ops/cpu/time_series_imputer_transformer.cc).

The kernel marshals a batch of observations (timestamps, key matrix, data
matrix) into the imputer engine of the Featurizers library, collects the rows
the engine emits through a callback, and materializes them as four parallel
output tensors.  The value codecs (ToString, ToStringOptional, FromString,
FromStringOptional), the batch adapter loop, the shape validation of Compute
and the kernel registration are translated here from the source.  The imputer
engine itself lives outside the translation unit; it is treated as a parameter
(an abstract state machine), and for the claims that need its behaviour a
model built from the specification is provided further below.
-/

/- ## Character and digit utilities -/

/-- The ten decimal digit characters. -/
def digitChars : List Char := ['0', '1', '2', '3', '4', '5', '6', '7', '8', '9']

/-- Decimal digit test used by the strtod model. -/
def isDigitChar (c : Char) : Bool := decide (c ∈ digitChars)

/-- Whitespace test of the C locale (isspace): space, tab, newline, vertical
tab, form feed, carriage return. -/
def isSpaceChar (c : Char) : Bool :=
  c = ' ' || c = '\t' || c = '\n' || c = '\r' || c = Char.ofNat 11 || c = Char.ofNat 12

/-- The character for the decimal digit `d < 10`. -/
def digitChar (d : Nat) : Char := Char.ofNat (48 + d)

/-- Numeric value of a decimal digit character. -/
def digitVal (c : Char) : Nat := c.toNat - 48

/-- Decimal digits, most significant first, structurally recursive on a fuel
bound so that it evaluates inside the kernel. -/
def natDigitsAux : Nat → Nat → List Char
  | 0, _ => []
  | fuel + 1, n =>
    if n < 10 then [digitChar n]
    else natDigitsAux fuel (n / 10) ++ [digitChar (n % 10)]

/-- Decimal digits of `n`, most significant first. -/
def natDigits (n : Nat) : List Char := natDigitsAux (n + 1) n

/-- Value of a list of decimal digit characters, most significant first. -/
def digitsToNat (ds : List Char) : Nat :=
  ds.foldl (fun a c => 10 * a + digitVal c) 0

/-- The hexadecimal digit characters: the decimal digits and the six letters
in either case. -/
def hexDigitChars : List Char :=
  digitChars ++ ['a', 'b', 'c', 'd', 'e', 'f'] ++ ['A', 'B', 'C', 'D', 'E', 'F']

/-- Hexadecimal digit test used by the strtod model. -/
def isHexDigitChar (c : Char) : Bool := decide (c ∈ hexDigitChars)

/-- Numeric value of a hexadecimal digit character. -/
def hexDigitVal (c : Char) : Nat :=
  if c.toNat ≤ 57 then c.toNat - 48
  else if c.toNat ≤ 70 then c.toNat - 55
  else c.toNat - 87

/-- Value of a list of hexadecimal digit characters, most significant
first. -/
def hexToNat (ds : List Char) : Nat :=
  ds.foldl (fun a c => 16 * a + hexDigitVal c) 0

/-- Case-insensitive match of one character against a lowercase pattern
character, as strtod matches the letters of inf, infinity and nan. -/
def charCI (p c : Char) : Bool :=
  decide (c = p) || decide (c = Char.ofNat (p.toNat - 32))

/-- Case-insensitive prefix match of a character stream against a lowercase
pattern. -/
def matchesCI : List Char → List Char → Bool
  | [], _ => true
  | _ :: _, [] => false
  | p :: ps, c :: cs => charCI p c && matchesCI ps cs

/-- A character allowed in the n-char-sequence of a nan(n-char-sequence)
subject: a digit, a letter or an underscore. -/
def isNanSeqChar (c : Char) : Bool :=
  (48 ≤ c.toNat && c.toNat ≤ 57) || (65 ≤ c.toNat && c.toNat ≤ 90) ||
  (97 ≤ c.toNat && c.toNat ≤ 122) || c.toNat == 95

/-- The number of extra characters a parenthesized n-char-sequence after
"nan" contributes to the subject sequence: the two parentheses plus the
sequence when the stream continues with '(', an n-char-sequence run and ')',
otherwise nothing. -/
def nanSeqLen (t : List Char) : Nat :=
  match t with
  | '(' :: r =>
    (match r.dropWhile isNanSeqChar with
     | ')' :: _ => (r.takeWhile isNanSeqChar).length + 2
     | _ => 0)
  | _ => 0

/-- Whether the stream (after whitespace and sign) opens a hexadecimal
subject sequence prefix: "0x" or "0X". -/
def hexStart (t : List Char) : Bool :=
  match t with
  | c0 :: c1 :: _ => decide (c0 = '0') && (decide (c1 = 'x') || decide (c1 = 'X'))
  | _ => false

/- ## Scalar values of numeric element types -/

/-- A scalar of a floating element type: the IEEE quiet NaN, one of the two
infinities, or a finite value modelled as a rational (the precision
difference between float and double is not modelled; the claims under study
concern the NaN sentinel and decimal conversions).  The overflow of a huge
finite decimal to an infinity is outside the model. -/
inductive RVal where
  | nan : RVal
  | inf : RVal
  | ninf : RVal
  | fin : ℚ → RVal
deriving DecidableEq

/- ## The strtod model -/

/-- Optional sign at the head of the character stream: whether it is negative,
the number of characters consumed, the rest. -/
def signSplit (s : List Char) : Bool × Nat × List Char :=
  match s with
  | [] => (false, 0, [])
  | c :: r =>
    if c = '-' then (true, 1, r)
    else if c = '+' then (false, 1, r)
    else (false, 0, c :: r)

/-- The rational value of a parsed decimal subject sequence: sign, integer
digits, fractional digits, exponent sign, exponent digits.  The value is
(±(intDs ++ fracDs as an integer) · 10^(±exp)) / 10^(number of fracDs). -/
def decValue (neg : Bool) (intDs fracDs : List Char) (expNeg : Bool) (expDs : List Char) : ℚ :=
  let mag : Nat := digitsToNat intDs * 10 ^ fracDs.length + digitsToNat fracDs
  let sM : Int := if neg then -(mag : Int) else (mag : Int)
  let e : Nat := digitsToNat expDs
  if expNeg then Rat.divInt sM ((10 ^ (fracDs.length + e) : Nat) : Int)
  else Rat.divInt (sM * ((10 ^ e : Nat) : Int)) ((10 ^ fracDs.length : Nat) : Int)

/-- The rational value of a parsed hexadecimal subject sequence: sign,
integer hex digits, fractional hex digits, binary exponent sign, exponent
(decimal) digits; the value is ±(intDs ++ fracDs as a base-16 integer)
· 2^(±exp) / 16^(number of fracDs). -/
def hexValue (neg : Bool) (intDs fracDs : List Char) (expNeg : Bool) (expDs : List Char) : ℚ :=
  let mag : Nat := hexToNat intDs * 16 ^ fracDs.length + hexToNat fracDs
  let sM : Int := if neg then -(mag : Int) else (mag : Int)
  let e : Nat := digitsToNat expDs
  if expNeg then Rat.divInt sM ((2 ^ e * 16 ^ fracDs.length : Nat) : Int)
  else Rat.divInt (sM * ((2 ^ e : Nat) : Int)) ((16 ^ fracDs.length : Nat) : Int)

/-- The continuation of the strtod model past a parsed mantissa: the optional
exponent part, introduced by one of the two exponent characters (e/E for a
decimal mantissa, p/P for a hexadecimal one), which contributes to the
subject sequence only when it has at least one digit; mkVal renders the
mantissa with the exponent sign and digits. -/
def strtodTail (mkVal : Bool → List Char → ℚ) (e1 e2 : Char) (consumed : Nat)
    (rest : List Char) : ℚ × Nat :=
  match rest with
  | c :: r4 =>
    if c = e1 ∨ c = e2 then
      let esg := signSplit r4
      let expDs := esg.2.2.takeWhile isDigitChar
      if expDs.length = 0 then (mkVal false [], consumed)
      else (mkVal esg.1 expDs, consumed + 1 + esg.2.1 + expDs.length)
    else (mkVal false [], consumed)
  | [] => (mkVal false [], consumed)

/-- Model of the C library strtod / strtof called by FromString<float> and
FromString<double>: the parsed value together with the number of characters
of the longest initial subject sequence, 0 when no conversion could be
performed (then the end pointer equals the start pointer).  After optional
whitespace and an optional sign the subject sequence is, in order of
preference: INFINITY or INF (case-insensitive, yielding an infinity of the
sign); NAN with an optional parenthesized n-char-sequence (case-insensitive
in the letters, yielding the quiet NaN); a hexadecimal mantissa after a
0x/0X prefix with an optional p/P binary exponent (when no hex digit
follows the prefix, the longest valid subject sequence is the single digit
"0", of value zero); otherwise a decimal mantissa with an optional e/E
exponent.  Finite values are kept exact as rationals. -/
def strtodModel (s : List Char) : RVal × Nat :=
  let ws := (s.takeWhile isSpaceChar).length
  let r1 := s.dropWhile isSpaceChar
  let sg := signSplit r1
  let t := sg.2.2
  if matchesCI ['i', 'n', 'f', 'i', 'n', 'i', 't', 'y'] t then
    (if sg.1 then .ninf else .inf, ws + sg.2.1 + 8)
  else if matchesCI ['i', 'n', 'f'] t then
    (if sg.1 then .ninf else .inf, ws + sg.2.1 + 3)
  else if matchesCI ['n', 'a', 'n'] t then
    (.nan, ws + sg.2.1 + 3 + nanSeqLen (t.drop 3))
  else if hexStart t then
    let h := t.drop 2
    let intDs := h.takeWhile isHexDigitChar
    let r2 := h.dropWhile isHexDigitChar
    let fr : List Char × Nat × List Char :=
      match r2 with
      | c :: r3 =>
        if c = '.' then
          let ds := r3.takeWhile isHexDigitChar
          (ds, ds.length + 1, r3.dropWhile isHexDigitChar)
        else ([], 0, c :: r3)
      | [] => ([], 0, [])
    if intDs.length + fr.1.length = 0 then (.fin 0, ws + sg.2.1 + 1)
    else
      let p := strtodTail (hexValue sg.1 intDs fr.1) 'p' 'P'
        (ws + sg.2.1 + 2 + intDs.length + fr.2.1) fr.2.2
      (.fin p.1, p.2)
  else
    let intDs := t.takeWhile isDigitChar
    let r2 := t.dropWhile isDigitChar
    let fr : List Char × Nat × List Char :=
      match r2 with
      | c :: r3 =>
        if c = '.' then
          let ds := r3.takeWhile isDigitChar
          (ds, ds.length + 1, r3.dropWhile isDigitChar)
        else ([], 0, c :: r3)
      | [] => ([], 0, [])
    if intDs.length + fr.1.length = 0 then (.fin 0, 0)
    else
      let p := strtodTail (decValue sg.1 intDs fr.1) 'e' 'E'
        (ws + sg.2.1 + intDs.length + fr.2.1) fr.2.2
      (.fin p.1, p.2)

/- ## The fixed six-digit rendering of std::to_string -/

/-- Round the fraction a / b (with b positive) to the nearest integer, ties to
even, as the correctly rounded decimal conversion of printf does. -/
def roundDecHalfEven (a b : Int) : Int :=
  let f := a.fdiv b
  let twice := 2 * (a - f * b)
  if twice < b then f
  else if b < twice then f + 1
  else if f % 2 = 0 then f else f + 1

/-- Fractional part of the rendering, zero-padded on the left to six digits. -/
def padTo6 (m : Nat) : List Char :=
  List.replicate (6 - (natDigits m).length) '0' ++ natDigits m

/-- Model of std::to_string on a floating value: the C++ standard specifies the
content sprintf with %f would produce, i.e. fixed notation with six fractional
digits, the decimal conversion of the magnitude rounded to nearest. -/
def fixed6 (q : ℚ) : List Char :=
  let n := (roundDecHalfEven ((q.num.natAbs * 1000000 : Nat) : Int) (q.den : Int)).toNat
  (if q.num < 0 then ['-'] else []) ++ natDigits (n / 1000000) ++ '.' :: padTo6 (n % 1000000)

/- ## Error taxonomy of the kernel -/

/-- The three ways the kernel fails: ORT_RETURN_IF_NOT / INVALID_ARGUMENT in
Compute and CheckBatches (shape), ORT_ENFORCE on the arity of an emitted row
(schema consistency), ORT_THROW in FromString<float> / FromString<double>
(conversion). -/
inductive KernelError where
  | shapeError : String → KernelError
  | schemaError : String → KernelError
  | conversionError : String → KernelError
deriving DecidableEq

/-- Decidable equality of Except results, used to evaluate codec results on
concrete inputs. -/
instance {ε α : Type} [DecidableEq ε] [DecidableEq α] : DecidableEq (Except ε α) := fun x y =>
  match x, y with
  | .ok a, .ok b =>
    if h : a = b then isTrue (by rw [h]) else isFalse (fun he => by cases he; exact h rfl)
  | .error a, .error b =>
    if h : a = b then isTrue (by rw [h]) else isFalse (fun he => by cases he; exact h rfl)
  | .ok _, .error _ => isFalse (fun he => by cases he)
  | .error _, .ok _ => isFalse (fun he => by cases he)

/- ## The value codecs of the source -/

/-- ToString<T> for a numeric T: std::to_string(val); std::to_string of the
quiet NaN renders as "nan", of the infinities as "inf" and "-inf". -/
def toString_num (v : RVal) : String :=
  match v with
  | .nan => "nan"
  | .inf => "inf"
  | .ninf => "-inf"
  | .fin q => ⟨fixed6 q⟩

/-- ToString<std::string>: the identity. -/
def toString_string (s : String) : String := s

/-- ToStringOptional<T> for a numeric T: a NaN value encodes to the absent
optional (std::isnan), every other value (infinities included) to its
std::to_string rendering. -/
def toStringOptional_num (v : RVal) : Option String :=
  match v with
  | .nan => none
  | .inf => some (toString_num .inf)
  | .ninf => some (toString_num .ninf)
  | .fin q => some (toString_num (.fin q))

/-- ToStringOptional<std::string>: the empty string encodes to the absent
optional, every other string to itself. -/
def toStringOptional_string (s : String) : Option String :=
  if s.isEmpty then none else some s

/-- FromString<std::string>: the identity, it cannot fail. -/
def fromString_string (s : String) : Except KernelError String := .ok s

/-- FromString<float> and FromString<double>: strtod on the string, failing
with ORT_THROW (a conversion error) exactly when the end pointer equals the
start pointer, i.e. when no characters were consumed. -/
def fromString_num (s : String) : Except KernelError RVal :=
  let p := strtodModel s.data
  if p.2 = 0 then .error (.conversionError "string is not convertible to a floating value")
  else .ok p.1

/-- FromStringOptional<T> for a numeric T: the absent optional decodes to the
quiet NaN, a present string goes through FromString<T>. -/
def fromStringOptional_num (o : Option String) : Except KernelError RVal :=
  match o with
  | some s => fromString_num s
  | none => .ok .nan

/-- FromStringOptional<std::string>: the absent optional decodes to the empty
string, a present string to itself. -/
def fromStringOptional_string (o : Option String) : Except KernelError String :=
  match o with
  | some s => .ok s
  | none => .ok ""

/-- The four codec operations of one scalar element type. -/
structure ScalarCodec (T : Type) where
  toStr : T → String
  toStrOpt : T → Option String
  fromStr : String → Except KernelError T
  fromStrOpt : Option String → Except KernelError T

/-- The codec instantiated at T = std::string. -/
def stringCodec : ScalarCodec String :=
  ⟨toString_string, toStringOptional_string, fromString_string, fromStringOptional_string⟩

/-- The codec instantiated at a numeric T (float or double). -/
def numCodec : ScalarCodec RVal :=
  ⟨toString_num, toStringOptional_num, fromString_num, fromStringOptional_num⟩

/- ## Row model and engine interface -/

/-- One observation fed to the engine: ToTimePoint of the timestamp, the key
cells as strings, the data cells as presence-tagged strings (the tuple built
in the input loop of the adapter). -/
structure Observation where
  ts : Int
  keys : List String
  vals : List (Option String)
deriving DecidableEq

/-- One row emitted by the engine through the callback: the added flag, the
time point, the key strings, the presence-tagged value strings. -/
structure OutputRow where
  added : Bool
  ts : Int
  keys : List String
  vals : List (Option String)
deriving DecidableEq

/-- std::chrono::system_clock::from_time_t on whole seconds: a time point is
modelled by its count of seconds since the epoch. -/
def ToTimePoint (secs : Int) : Int := secs

/-- duration_cast to seconds of a time point since the epoch. -/
def ToSecs (tp : Int) : Int := tp

/-- The interface of the imputer engine (the Featurizers transformer built
from the state tensor, which lives outside this translation unit): execute
consumes one observation and emits rows through the callback, flush emits the
rows still held back. -/
structure EngineModel (E : Type) where
  execute : E → Observation → E × List OutputRow
  flush : E → E × List OutputRow

/-- An engine call recorded by the adapter loop. -/
inductive EngineCall where
  | exec : Observation → EngineCall
  | flushCall : EngineCall
deriving DecidableEq

/- ## The batch adapter -/

/-- The observation the adapter builds from input row `row`: the timestamp,
the kpr key cells of the row encoded with ToString, the cols data cells
encoded with ToStringOptional. -/
def buildObs {T : Type} (codec : ScalarCodec T) (kpr cols : Nat)
    (timesData : List Int) (keysData dataData : List T) (row : Nat) : Observation :=
  { ts := ToTimePoint (timesData.getD row 0),
    keys := ((keysData.drop (row * kpr)).take kpr).map codec.toStr,
    vals := ((dataData.drop (row * cols)).take cols).map codec.toStrOpt }

/-- One iteration of the input loop: execute the next observation, append the
emitted rows to the output buffer, record the call. -/
def feedStep {E : Type} (M : EngineModel E)
    (acc : E × List OutputRow × List EngineCall) (o : Observation) :
    E × List OutputRow × List EngineCall :=
  let r := M.execute acc.1 o
  (r.1, acc.2.1 ++ r.2, acc.2.2 ++ [EngineCall.exec o])

/-- The transform loop of the adapter: execute once per observation in order,
then flush once; every emitted row is appended to the output buffer in
emission order.  The engine-call trace is recorded alongside. -/
def runAll {E : Type} (M : EngineModel E) (e : E) (obs : List Observation) :
    List OutputRow × List EngineCall :=
  let r := obs.foldl (feedStep M) (e, [], [])
  let f := M.flush r.1
  (r.2.1 ++ f.2, r.2.2 ++ [EngineCall.flushCall])

/-- The input half of TimeSeriesImputerTransformerImpl<T>::operator(): one
observation per input row index, in increasing order. -/
def implFeed {E T : Type} (M : EngineModel E) (e : E) (codec : ScalarCodec T)
    (rows kpr cols : Nat) (timesData : List Int) (keysData dataData : List T) :
    List OutputRow × List EngineCall :=
  runAll M e ((List.range rows).map (buildObs codec kpr cols timesData keysData dataData))

/-- std::transform with a throwing functor, as used in the output loop. -/
def mapExcept {α β : Type} (f : α → Except KernelError β) : List α → Except KernelError (List β)
  | [] => .ok []
  | a :: l => do
    let b ← f a
    let bs ← mapExcept f l
    .ok (b :: bs)

/-- The output loop body for one emitted row (source lines 183-196): the added
flag and ToSecs of the time point are written, the key arity and the value
arity are enforced by ORT_ENFORCE (a schema consistency error), then the keys
are converted back through FromString and the data values through
FromStringOptional. -/
def encodeRow {T : Type} (codec : ScalarCodec T) (kpr cols : Nat) (r : OutputRow) :
    Except KernelError (Bool × Int × List T × List T) :=
  if r.keys.length ≠ kpr then
    .error (.schemaError "resulting number of keys differs from expected")
  else if r.vals.length ≠ cols then
    .error (.schemaError "resulting number of columns differs from expected")
  else do
    let ks ← mapExcept codec.fromStr r.keys
    let ds ← mapExcept codec.fromStrOpt r.vals
    .ok (r.added, ToSecs r.ts, ks, ds)

/-- The output loop over the whole buffer: the four parallel outputs (added
flags, timestamps, flattened key matrix, flattened data matrix). -/
def materialize {T : Type} (codec : ScalarCodec T) (kpr cols : Nat) :
    List OutputRow → Except KernelError (List Bool × List Int × List T × List T)
  | [] => .ok ([], [], [], [])
  | r :: rest => do
    let x ← encodeRow codec kpr cols r
    let y ← materialize codec kpr cols rest
    .ok (x.1 :: y.1, x.2.1 :: y.2.1, x.2.2.1 ++ y.2.2.1, x.2.2.2 ++ y.2.2.2)

/-- TimeSeriesImputerTransformerImpl<T>::operator(): feed every input row to
the engine, flush, then materialize the four parallel outputs from the
buffer. -/
def TimeSeriesImputerTransformerImpl {E T : Type} (M : EngineModel E) (e : E)
    (codec : ScalarCodec T) (rows kpr cols : Nat)
    (timesData : List Int) (keysData dataData : List T) :
    Except KernelError (List Bool × List Int × List T × List T) :=
  materialize codec kpr cols (implFeed M e codec rows kpr cols timesData keysData dataData).1

/- ## Compute and the kernel registration -/

/-- The element types a tensor of this kernel can carry. -/
inductive ElemType where
  | uint8 | int64 | str | float32 | float64
deriving DecidableEq

/-- The shapes, element types and flattened data of the input tensors of one
invocation (the state tensor is consumed by the engine construction, which is
outside this translation unit, so only its consumer, the engine parameter,
appears in Compute below). -/
structure ComputeInputs where
  timesDims : List Nat
  timesData : List Int
  keysDims : List Nat
  keysType : ElemType
  keysData : List String
  dataDims : List Nat
  dataType : ElemType
  dataData : List String

/-- TimeSeriesImputerTransformer::CheckBatches: the shape must have exactly
two dimensions and its first dimension must equal `rows`. -/
def CheckBatches (rows : Nat) (dims : List Nat) : Except KernelError Unit :=
  if dims.length = 2 then
    if rows = dims.headD 0 then .ok ()
    else .error (.shapeError "Number of rows does not match")
  else .error (.shapeError "Expect shape of [R][C]")

/-- TimeSeriesImputerTransformer::Compute: the timestamps tensor must be
one-dimensional, the key and data tensors must pass CheckBatches against its
length, the two element types must agree; only then is the std::string
instantiation of the transform run. -/
def Compute {E : Type} (M : EngineModel E) (e : E) (inp : ComputeInputs) :
    Except KernelError (List Bool × List Int × List String × List String) :=
  if inp.timesDims.length = 1 then
    let rows := inp.timesDims.headD 0
    do
      CheckBatches rows inp.keysDims
      CheckBatches rows inp.dataDims
      if inp.keysType = inp.dataType then
        TimeSeriesImputerTransformerImpl M e stringCodec rows
          (inp.keysDims.getD 1 0) (inp.dataDims.getD 1 0)
          inp.timesData inp.keysData inp.dataData
      else .error (.shapeError "Keys and data must have the same datatype")
  else .error (.shapeError "Times must have shape [B][R] or [R]")

/-- The type constraints of the ONNX_OPERATOR_KERNEL_EX registration. -/
structure KernelTypeConstraints where
  t0 : ElemType
  t1 : ElemType
  t2 : ElemType

/-- The registration constrains T0 (the state tensor) to uint8, T1 (the
timestamps) to int64, and T2 (the key and data tensors) to string. -/
def timeSeriesImputerKernelConstraints : KernelTypeConstraints :=
  ⟨ElemType.uint8, ElemType.int64, ElemType.str⟩

/- ## A model of the imputer engine, built from the specification -/

/-- Per key-group state of the engine: the last seen timestamp and the last
known value of every column. -/
structure GroupState where
  lastTs : Int
  lastVals : List (Option String)
deriving DecidableEq

/-- The state of the spec engine: the expected cadence in seconds (part of
the trained configuration carried by the state image), the per key-group
states, and the look-ahead buffer of rows produced but not yet released (the
spec lets execute hold rows back when a look-ahead rule requires seeing the
next row first, and has flush emit every row the engine is still holding
across all key-groups, in timestamp order). -/
structure SpecEngine where
  cadence : Nat
  groups : List (List String × GroupState)
  buffer : List OutputRow
deriving DecidableEq

/-- Look a key-group up. -/
def findGroup (gs : List (List String × GroupState)) (k : List String) : Option GroupState :=
  match gs with
  | [] => none
  | g :: rest => if g.1 = k then some g.2 else findGroup rest k

/-- Store the state of a key-group. -/
def setGroup (gs : List (List String × GroupState)) (k : List String) (st : GroupState) :
    List (List String × GroupState) :=
  match gs with
  | [] => [(k, st)]
  | g :: rest => if g.1 = k then (k, st) :: rest else g :: setGroup rest k st

/-- The timestamps of the synthesized gap rows: one per whole cadence step
strictly between the last seen timestamp and the new one. -/
def gapTimes (lastTs t : Int) (cadence : Nat) : List Int :=
  (List.range (((t - lastTs).toNat - 1) / cadence)).map
    (fun k => lastTs + (((k + 1) * cadence : Nat) : Int))

/-- Fill the absent values of a row from the last known values, column by
column. -/
def fillVals (vals lastVals : List (Option String)) : List (Option String) :=
  List.zipWith (fun v l => match v with | some x => some x | none => l) vals lastVals

/-- Insert a row into a row list ordered by timestamp, after every row whose
timestamp does not exceed the new one, so that rows of equal timestamp keep
their relative order. -/
def insertByTs (r : OutputRow) : List OutputRow → List OutputRow
  | [] => [r]
  | x :: rest => if x.ts ≤ r.ts then x :: insertByTs r rest else r :: x :: rest

/-- Stable insertion sort of the buffered rows by timestamp: rows are
released in timestamp order, ties broken by emission order. -/
def sortByTs (l : List OutputRow) : List OutputRow :=
  l.foldl (fun acc r => insertByTs r acc) []

/-- Modelled from the spec: execute of the imputer state machine (section 4.2
of the spec; the TimeSeriesImputerEstimator transformer itself is not part of
this translation unit).  For the observation's key-group, absent values are
filled from the group's last known values; one row is synthesized per missed
cadence step strictly between the last seen timestamp and the new one
(added = true, values carried forward), followed by the real observation
(added = false); the group state is updated.  A first observation of a group
is produced as is (an absent value stays absent).  The spec allows execute to
hold rows back in a look-ahead buffer rather than emit them at once; this
engine buffers every produced row and releases them all at flush, which the
spec's flush contract (every held row emitted, across all key-groups, in
timestamp order) makes conforming. -/
def SpecEngine.execute (e : SpecEngine) (o : Observation) : SpecEngine × List OutputRow :=
  match findGroup e.groups o.keys with
  | none =>
    ({ e with
       groups := setGroup e.groups o.keys ⟨o.ts, o.vals⟩
       buffer := e.buffer ++ [⟨false, o.ts, o.keys, o.vals⟩] }, [])
  | some g =>
    let filled := fillVals o.vals g.lastVals
    let synth := (gapTimes g.lastTs o.ts e.cadence).map
      (fun t => (⟨true, t, o.keys, g.lastVals⟩ : OutputRow))
    ({ e with
       groups := setGroup e.groups o.keys ⟨o.ts, filled⟩
       buffer := e.buffer ++ (synth ++ [⟨false, o.ts, o.keys, filled⟩]) }, [])

/-- Modelled from the spec: flush of the imputer state machine.  Every row
the engine is still holding, across all key-groups, is emitted in timestamp
order (ties broken by emission order) and the buffer is cleared. -/
def SpecEngine.flush (e : SpecEngine) : SpecEngine × List OutputRow :=
  ({ e with buffer := [] }, sortByTs e.buffer)

/-- The spec engine packaged behind the engine interface. -/
def specEngineModel : EngineModel SpecEngine := ⟨SpecEngine.execute, SpecEngine.flush⟩

/-- A trivial engine that emits nothing, used to exercise the adapter. -/
def nullEngineModel : EngineModel Unit := ⟨fun e _ => (e, []), fun e => (e, [])⟩

/-- Executable non-decreasing check for lists of timestamps. -/
def nonDecreasing : List Int → Bool
  | [] => true
  | [_] => true
  | a :: b :: rest => a ≤ b && nonDecreasing (b :: rest)

/-- The four output arrays are parallel views of the emitted row buffer: one
added flag and one timestamp per emitted row, the i-th kpr-slice of the
flattened key matrix is the converted keys of the i-th emitted row, and the
i-th cols-slice of the flattened data matrix is the converted values of the
i-th emitted row. -/
def ParallelOutputs {T : Type} (codec : ScalarCodec T) (kpr cols : Nat)
    (outs : List OutputRow) (res : List Bool × List Int × List T × List T) : Prop :=
  res.1.length = outs.length ∧ res.2.1.length = outs.length ∧
  res.2.2.1.length = outs.length * kpr ∧ res.2.2.2.length = outs.length * cols ∧
  ∀ i, i < outs.length →
    res.1.getD i false = (outs.getD i ⟨false, 0, [], []⟩).added ∧
    res.2.1.getD i 0 = ToSecs (outs.getD i ⟨false, 0, [], []⟩).ts ∧
    mapExcept codec.fromStr (outs.getD i ⟨false, 0, [], []⟩).keys =
      .ok ((res.2.2.1.drop (i * kpr)).take kpr) ∧
    mapExcept codec.fromStrOpt (outs.getD i ⟨false, 0, [], []⟩).vals =
      .ok ((res.2.2.2.drop (i * cols)).take cols)

/-- A string can be parsed as a number (strtod performs a conversion and the
end pointer moves) exactly when, after optional leading whitespace and an
optional sign, it continues with a case-insensitive inf or nan, with a digit
(the hexadecimal prefix opens with the digit 0), or with a decimal point
followed by a digit. -/
def hasNumericStart (s : List Char) : Bool :=
  let t := (signSplit (s.dropWhile isSpaceChar)).2.2
  matchesCI ['i', 'n', 'f'] t || matchesCI ['n', 'a', 'n'] t ||
  (match t with
   | [] => false
   | c :: rest =>
     if isDigitChar c then true
     else if c = '.' then
       match rest with
       | [] => false
       | d :: _ => isDigitChar d
     else false)

/- ## Lemmas: digits and renderings -/

theorem natDigitsAux_congr : ∀ (f f' n : Nat), n < f → n < f' → natDigitsAux f n = natDigitsAux f' n := by
  intro f
  induction f with
  | zero => intro f' n h _; exact absurd h (Nat.not_lt_zero n)
  | succ f ih =>
    intro f' n h h'
    cases f' with
    | zero => exact absurd h' (Nat.not_lt_zero n)
    | succ f'' =>
      simp only [natDigitsAux]
      by_cases h10 : n < 10
      · simp [h10]
      · have hn : 0 < n := by omega
        have hdiv : n / 10 < n := Nat.div_lt_self hn (by omega)
        simp only [h10, if_false]
        rw [ih f'' (n / 10) (by omega) (by omega)]

theorem natDigits_eq (n : Nat) :
    natDigits n = if n < 10 then [digitChar n] else natDigits (n / 10) ++ [digitChar (n % 10)] := by
  show natDigitsAux (n + 1) n = _
  simp only [natDigitsAux]
  by_cases h10 : n < 10
  · simp [h10]
  · have hn : 0 < n := by omega
    have hdiv : n / 10 < n := Nat.div_lt_self hn (by omega)
    simp only [h10, if_false]
    rw [natDigitsAux_congr n (n / 10 + 1) (n / 10) (by omega) (by omega)]
    rfl

theorem natDigits_ne_nil (n : Nat) : natDigits n ≠ [] := by
  rw [natDigits_eq]
  by_cases h10 : n < 10
  · simp [h10]
  · simp [h10]

theorem digitChar_isDigitChar {d : Nat} (h : d < 10) : isDigitChar (digitChar d) = true := by
  interval_cases d <;> decide

theorem digitVal_digitChar {d : Nat} (h : d < 10) : digitVal (digitChar d) = d := by
  interval_cases d <;> decide

theorem natDigits_all_digit (n : Nat) : ∀ c ∈ natDigits n, isDigitChar c = true := by
  induction n using Nat.strong_induction_on with
  | _ n ih =>
    rw [natDigits_eq]
    by_cases h10 : n < 10
    · simp only [h10, if_true, List.mem_singleton]
      rintro c rfl
      exact digitChar_isDigitChar h10
    · have hn : 0 < n := by omega
      have hdiv : n / 10 < n := Nat.div_lt_self hn (by omega)
      simp only [h10, if_false, List.mem_append, List.mem_singleton]
      rintro c (hc | rfl)
      · exact ih (n / 10) hdiv c hc
      · exact digitChar_isDigitChar (Nat.mod_lt n (by omega))

theorem digitsToNat_append_singleton (l : List Char) (c : Char) :
    digitsToNat (l ++ [c]) = 10 * digitsToNat l + digitVal c := by
  simp [digitsToNat, List.foldl_append]

theorem digitsToNat_natDigits (n : Nat) : digitsToNat (natDigits n) = n := by
  induction n using Nat.strong_induction_on with
  | _ n ih =>
    rw [natDigits_eq]
    by_cases h10 : n < 10
    · simp only [h10, if_true]
      show digitsToNat ([] ++ [digitChar n]) = n
      rw [digitsToNat_append_singleton]
      simp [digitsToNat, digitVal_digitChar h10]
    · have hn : 0 < n := by omega
      have hdiv : n / 10 < n := Nat.div_lt_self hn (by omega)
      simp only [h10, if_false]
      rw [digitsToNat_append_singleton, ih (n / 10) hdiv,
        digitVal_digitChar (Nat.mod_lt n (by omega))]
      omega

theorem natDigits_length_le {n k : Nat} (hk : 0 < k) (h : n < 10 ^ k) :
    (natDigits n).length ≤ k := by
  induction n using Nat.strong_induction_on generalizing k with
  | _ n ih =>
    rw [natDigits_eq]
    by_cases h10 : n < 10
    · simpa [h10] using hk
    · have hn : 0 < n := by omega
      have hdiv : n / 10 < n := Nat.div_lt_self hn (by omega)
      have hk1 : 1 < k := by
        by_contra hc
        have : k = 1 := by omega
        subst this
        simp at h
        omega
      have hlt : n / 10 < 10 ^ (k - 1) := by
        rw [Nat.div_lt_iff_lt_mul (by omega)]
        have : 10 ^ (k - 1) * 10 = 10 ^ k := by
          rw [← pow_succ]
          congr 1
          omega
        omega
      simp only [h10, if_false, List.length_append, List.length_singleton]
      have := ih (n / 10) hdiv (k := k - 1) (by omega) hlt
      omega

/- ## Lemmas: characters -/

theorem mem_digitChars_of_isDigitChar {c : Char} (h : isDigitChar c = true) : c ∈ digitChars :=
  of_decide_eq_true h

theorem not_space_of_digit {c : Char} (h : isDigitChar c = true) : isSpaceChar c = false := by
  have hm := mem_digitChars_of_isDigitChar h
  simp only [digitChars, List.mem_cons, List.not_mem_nil, or_false] at hm
  rcases hm with rfl | rfl | rfl | rfl | rfl | rfl | rfl | rfl | rfl | rfl <;> decide

theorem digit_ne_minus {c : Char} (h : isDigitChar c = true) : c ≠ '-' := by
  have hm := mem_digitChars_of_isDigitChar h
  simp only [digitChars, List.mem_cons, List.not_mem_nil, or_false] at hm
  rcases hm with rfl | rfl | rfl | rfl | rfl | rfl | rfl | rfl | rfl | rfl <;> decide

theorem digit_ne_plus {c : Char} (h : isDigitChar c = true) : c ≠ '+' := by
  have hm := mem_digitChars_of_isDigitChar h
  simp only [digitChars, List.mem_cons, List.not_mem_nil, or_false] at hm
  rcases hm with rfl | rfl | rfl | rfl | rfl | rfl | rfl | rfl | rfl | rfl <;> decide

theorem digit_ne_dot {c : Char} (h : isDigitChar c = true) : c ≠ '.' := by
  have hm := mem_digitChars_of_isDigitChar h
  simp only [digitChars, List.mem_cons, List.not_mem_nil, or_false] at hm
  rcases hm with rfl | rfl | rfl | rfl | rfl | rfl | rfl | rfl | rfl | rfl <;> decide

theorem digit_ne_x {c : Char} (h : isDigitChar c = true) : c ≠ 'x' := by
  have hm := mem_digitChars_of_isDigitChar h
  simp only [digitChars, List.mem_cons, List.not_mem_nil, or_false] at hm
  rcases hm with rfl | rfl | rfl | rfl | rfl | rfl | rfl | rfl | rfl | rfl <;> decide

theorem digit_ne_upper_x {c : Char} (h : isDigitChar c = true) : c ≠ 'X' := by
  have hm := mem_digitChars_of_isDigitChar h
  simp only [digitChars, List.mem_cons, List.not_mem_nil, or_false] at hm
  rcases hm with rfl | rfl | rfl | rfl | rfl | rfl | rfl | rfl | rfl | rfl <;> decide

theorem charCI_i_of_digit {c : Char} (h : isDigitChar c = true) : charCI 'i' c = false := by
  have hm := mem_digitChars_of_isDigitChar h
  simp only [digitChars, List.mem_cons, List.not_mem_nil, or_false] at hm
  rcases hm with rfl | rfl | rfl | rfl | rfl | rfl | rfl | rfl | rfl | rfl <;> decide

theorem charCI_n_of_digit {c : Char} (h : isDigitChar c = true) : charCI 'n' c = false := by
  have hm := mem_digitChars_of_isDigitChar h
  simp only [digitChars, List.mem_cons, List.not_mem_nil, or_false] at hm
  rcases hm with rfl | rfl | rfl | rfl | rfl | rfl | rfl | rfl | rfl | rfl <;> decide

theorem matchesCI_infinity_inf (t : List Char)
    (h : matchesCI ['i', 'n', 'f', 'i', 'n', 'i', 't', 'y'] t = true) :
    matchesCI ['i', 'n', 'f'] t = true := by
  rcases t with _ | ⟨c0, _ | ⟨c1, _ | ⟨c2, r⟩⟩⟩
  · simp [matchesCI] at h
  · simp [matchesCI] at h
  · simp [matchesCI] at h
  · simp only [matchesCI, Bool.and_eq_true] at h ⊢
    exact ⟨h.1, h.2.1, h.2.2.1, trivial⟩

theorem hexStart_cons_cons (c0 c1 : Char) (r : List Char) :
    hexStart (c0 :: c1 :: r) =
      (decide (c0 = '0') && (decide (c1 = 'x') || decide (c1 = 'X'))) := rfl

theorem hexStart_false_of_second {c1 : Char} (c0 : Char) (r : List Char)
    (hx : c1 ≠ 'x') (hX : c1 ≠ 'X') : hexStart (c0 :: c1 :: r) = false := by
  rw [hexStart_cons_cons]
  simp [hx, hX]

theorem hexStart_false_of_head {c : Char} (rest : List Char) (h : isDigitChar c = false) :
    hexStart (c :: rest) = false := by
  cases rest with
  | nil => rfl
  | cons c1 r =>
    have h0 : ¬ c = '0' := by
      intro hc
      subst hc
      revert h
      decide
    rw [hexStart_cons_cons]
    simp [h0]

/- ## Lemmas: takeWhile and dropWhile over runs -/

theorem takeWhile_append_of_all {α : Type} {p : α → Bool} {l1 : List α} (l2 : List α)
    (h : ∀ a ∈ l1, p a = true) : (l1 ++ l2).takeWhile p = l1 ++ l2.takeWhile p := by
  induction l1 with
  | nil => simp
  | cons a l ih =>
    have ha : p a = true := h a (by simp)
    simp only [List.cons_append, List.takeWhile_cons, ha, if_true]
    rw [ih (fun b hb => h b (by simp [hb]))]

theorem dropWhile_append_of_all {α : Type} {p : α → Bool} {l1 : List α} (l2 : List α)
    (h : ∀ a ∈ l1, p a = true) : (l1 ++ l2).dropWhile p = l2.dropWhile p := by
  induction l1 with
  | nil => simp
  | cons a l ih =>
    have ha : p a = true := h a (by simp)
    simp only [List.cons_append, List.dropWhile_cons, ha, if_true]
    exact ih (fun b hb => h b (by simp [hb]))

theorem takeWhile_of_all {α : Type} {p : α → Bool} {l : List α}
    (h : ∀ a ∈ l, p a = true) : l.takeWhile p = l := by
  have := @takeWhile_append_of_all _ p l [] h
  simpa using this

theorem dropWhile_of_all {α : Type} {p : α → Bool} {l : List α}
    (h : ∀ a ∈ l, p a = true) : l.dropWhile p = [] := by
  have := @dropWhile_append_of_all _ p l [] h
  simpa using this

/- ## Lemmas: the zero padding -/

theorem padTo6_all_digit (m : Nat) : ∀ c ∈ padTo6 m, isDigitChar c = true := by
  intro c hc
  rcases List.mem_append.mp hc with h | h
  · rw [List.eq_of_mem_replicate h]
    decide
  · exact natDigits_all_digit m c h

theorem digitsToNat_replicate_zero (k : Nat) (ds : List Char) :
    digitsToNat (List.replicate k '0' ++ ds) = digitsToNat ds := by
  induction k with
  | zero => simp
  | succ k ih =>
    show digitsToNat (('0' :: List.replicate k '0') ++ ds) = digitsToNat ds
    simpa [digitsToNat] using ih

theorem digitsToNat_padTo6 (m : Nat) : digitsToNat (padTo6 m) = m := by
  rw [padTo6, digitsToNat_replicate_zero, digitsToNat_natDigits]

theorem padTo6_length {m : Nat} (h : m < 1000000) : (padTo6 m).length = 6 := by
  have hle : (natDigits m).length ≤ 6 := natDigits_length_le (by omega) (by norm_num; omega)
  simp [padTo6, List.length_replicate]
  omega


/- ## Lemmas: the strtod model on fixed-notation literals -/

theorem strtod_fixed_literal (neg : Bool) (ds fs : List Char)
    (hds : ∀ c ∈ ds, isDigitChar c = true) (hfs : ∀ c ∈ fs, isDigitChar c = true)
    (hne : ds ≠ []) :
    strtodModel (cond neg ['-'] [] ++ ds ++ '.' :: fs) =
      (.fin (decValue neg ds fs false []), cond neg 1 0 + ds.length + fs.length + 1) := by
  obtain ⟨d, ds', rfl⟩ : ∃ d ds', ds = d :: ds' := by
    cases ds with
    | nil => exact absurd rfl hne
    | cons d t => exact ⟨d, t, rfl⟩
  have hd : isDigitChar d = true := hds d (by simp)
  have hdot : isDigitChar '.' = false := by decide
  have hspace_d : isSpaceChar d = false := not_space_of_digit hd
  have hminus_d : ¬ d = '-' := digit_ne_minus hd
  have hplus_d : ¬ d = '+' := digit_ne_plus hd
  have htake : ((d :: ds') ++ '.' :: fs).takeWhile isDigitChar = d :: ds' := by
    rw [takeWhile_append_of_all _ hds]
    simp [List.takeWhile_cons, hdot]
  have hdrop : ((d :: ds') ++ '.' :: fs).dropWhile isDigitChar = '.' :: fs := by
    rw [dropWhile_append_of_all _ hds]
    simp [List.dropWhile_cons, hdot]
  have htakefs : fs.takeWhile isDigitChar = fs := takeWhile_of_all hfs
  have hdropfs : fs.dropWhile isDigitChar = [] := dropWhile_of_all hfs
  have hcons : (d :: ds') ++ '.' :: fs = d :: (ds' ++ '.' :: fs) := by simp
  have hinf8 : matchesCI ['i', 'n', 'f', 'i', 'n', 'i', 't', 'y'] (d :: (ds' ++ '.' :: fs)) =
      false := by
    simp [matchesCI, charCI_i_of_digit hd]
  have hinf3 : matchesCI ['i', 'n', 'f'] (d :: (ds' ++ '.' :: fs)) = false := by
    simp [matchesCI, charCI_i_of_digit hd]
  have hnan : matchesCI ['n', 'a', 'n'] (d :: (ds' ++ '.' :: fs)) = false := by
    simp [matchesCI, charCI_n_of_digit hd]
  have hhex : hexStart (d :: (ds' ++ '.' :: fs)) = false := by
    cases ds' with
    | nil => exact hexStart_false_of_second d fs (by decide) (by decide)
    | cons e t =>
      exact hexStart_false_of_second d _ (digit_ne_x (hds e (by simp)))
        (digit_ne_upper_x (hds e (by simp)))
  cases neg with
  | false =>
    show strtodModel ([] ++ (d :: ds') ++ '.' :: fs) = _
    rw [List.nil_append]
    rw [hcons] at htake hdrop ⊢
    simp only [strtodModel, List.takeWhile_cons, hspace_d, List.dropWhile_cons,
      Bool.false_eq_true, if_false, List.takeWhile_nil, List.length_nil,
      signSplit, hminus_d, hplus_d, if_neg, hinf8, hinf3, hnan, hhex,
      htake, hdrop, htakefs, hdropfs, List.length_cons, if_pos rfl]
    have hlen : ¬ (ds'.length + 1 + fs.length = 0) := by omega
    simp only [if_true]
    rw [if_neg hlen]
    simp only [strtodTail, Prod.mk.injEq, cond]
    exact ⟨trivial, by omega⟩
  | true =>
    show strtodModel ('-' :: ((d :: ds') ++ '.' :: fs)) = _
    have hsm : isSpaceChar '-' = false := by decide
    have hws : (('-' :: ((d :: ds') ++ '.' :: fs)).takeWhile isSpaceChar) = [] := by
      simp [List.takeWhile_cons, hsm]
    have hwd : (('-' :: ((d :: ds') ++ '.' :: fs)).dropWhile isSpaceChar) =
        '-' :: ((d :: ds') ++ '.' :: fs) := by
      simp [List.dropWhile_cons, hsm]
    have hsign : signSplit ('-' :: ((d :: ds') ++ '.' :: fs)) =
        (true, 1, (d :: ds') ++ '.' :: fs) := by
      simp [signSplit]
    rw [hcons] at htake hdrop hws hwd hsign ⊢
    simp only [strtodModel, hws, hwd, hsign, List.length_nil, hinf8, hinf3, hnan, hhex,
      Bool.false_eq_true, if_false, htake, hdrop, htakefs, hdropfs,
      List.length_cons, if_pos rfl]
    have hlen : ¬ (ds'.length + 1 + fs.length = 0) := by omega
    simp only [if_true]
    rw [if_neg hlen]
    simp only [strtodTail, Prod.mk.injEq, cond]
    exact ⟨trivial, by omega⟩

/- ## Lemmas: rounding and the rendering round trip -/

theorem roundDecHalfEven_mul (m : Int) {b : Int} (hb : 0 < b) :
    roundDecHalfEven (m * b) b = m := by
  simp only [roundDecHalfEven, Int.mul_fdiv_cancel m (by omega : b ≠ 0)]
  have h2 : 2 * (m * b - m * b) = 0 := by ring
  rw [h2, if_pos hb]

theorem roundDecHalfEven_nonneg {a b : Int} (ha : 0 ≤ a) (hb : 0 < b) :
    0 ≤ roundDecHalfEven a b := by
  have hf : 0 ≤ a.fdiv b := Int.fdiv_nonneg ha (le_of_lt hb)
  simp only [roundDecHalfEven]
  split_ifs <;> omega

theorem digitsToNat_nil : digitsToNat [] = 0 := rfl

theorem decValue_rendering (neg : Bool) (n : Nat) :
    decValue neg (natDigits (n / 1000000)) (padTo6 (n % 1000000)) false [] =
      Rat.divInt (if neg then -(n : Int) else (n : Int)) 1000000 := by
  have hmod : n % 1000000 < 1000000 := Nat.mod_lt n (by omega)
  have hlen : (padTo6 (n % 1000000)).length = 6 := padTo6_length hmod
  have h6 : (10 : Nat) ^ 6 = 1000000 := by norm_num
  simp only [decValue, hlen, digitsToNat_natDigits, digitsToNat_padTo6, digitsToNat_nil,
    Bool.false_eq_true, if_false, h6]
  have hmag : n / 1000000 * 1000000 + n % 1000000 = n := by omega
  rw [hmag]
  norm_num

theorem strtodModel_fixed6 (q : ℚ) :
    strtodModel (fixed6 q) =
      (.fin (Rat.divInt
        (if q.num < 0 then
          -(((roundDecHalfEven ((q.num.natAbs * 1000000 : Nat) : Int) (q.den : Int)).toNat : Nat) : Int)
         else
          (((roundDecHalfEven ((q.num.natAbs * 1000000 : Nat) : Int) (q.den : Int)).toNat : Nat) : Int))
        1000000),
       (fixed6 q).length) := by
  set n : Nat := (roundDecHalfEven ((q.num.natAbs * 1000000 : Nat) : Int) (q.den : Int)).toNat with hn
  have hds : ∀ c ∈ natDigits (n / 1000000), isDigitChar c = true :=
    natDigits_all_digit (n / 1000000)
  have hfs : ∀ c ∈ padTo6 (n % 1000000), isDigitChar c = true :=
    padTo6_all_digit (n % 1000000)
  have hne : natDigits (n / 1000000) ≠ [] := natDigits_ne_nil _
  have hmod : n % 1000000 < 1000000 := Nat.mod_lt n (by omega)
  have hflen : (padTo6 (n % 1000000)).length = 6 := padTo6_length hmod
  by_cases hneg : q.num < 0
  · have hfx : fixed6 q =
        cond true ['-'] [] ++ natDigits (n / 1000000) ++ '.' :: padTo6 (n % 1000000) := by
      simp only [fixed6, if_pos hneg, ← hn, cond]
    rw [hfx, strtod_fixed_literal true _ _ hds hfs hne, decValue_rendering, if_pos hneg]
    simp [List.length_append, hflen]
    try omega
  · have hfx : fixed6 q =
        cond false ['-'] [] ++ natDigits (n / 1000000) ++ '.' :: padTo6 (n % 1000000) := by
      simp only [fixed6, if_neg hneg, ← hn, cond]
    rw [hfx, strtod_fixed_literal false _ _ hds hfs hne, decValue_rendering, if_neg hneg]
    simp [List.length_append, hflen]
    try omega

theorem fixed6_length_pos (q : ℚ) : (fixed6 q).length ≠ 0 := by
  simp [fixed6, List.length_append]

theorem fromString_num_fixed6 (q : ℚ) :
    fromString_num (toString_num (.fin q)) =
      .ok (.fin (Rat.divInt
        (if q.num < 0 then
          -(((roundDecHalfEven ((q.num.natAbs * 1000000 : Nat) : Int) (q.den : Int)).toNat : Nat) : Int)
         else
          (((roundDecHalfEven ((q.num.natAbs * 1000000 : Nat) : Int) (q.den : Int)).toNat : Nat) : Int))
        1000000)) := by
  show fromString_num ⟨fixed6 q⟩ = _
  simp only [fromString_num, strtodModel_fixed6]
  rw [if_neg (fixed6_length_pos q)]

theorem roundtrip_divInt_million (m : Int) :
    fromStringOptional_num (toStringOptional_num (RVal.fin (Rat.divInt m 1000000))) =
      .ok (RVal.fin (Rat.divInt m 1000000)) := by
  set q := Rat.divInt m 1000000 with hq
  have hdpos : 0 < q.den := Rat.den_pos q
  have hdz : ((q.den : Nat) : Int) ≠ 0 := by omega
  have hq6 : q.num * 1000000 = m * (q.den : Int) := by
    have h1 : Rat.divInt q.num (q.den : Int) = Rat.divInt m 1000000 := by
      rw [Rat.num_divInt_den]
    exact (Rat.divInt_eq_iff hdz (by norm_num)).mp h1
  have hNat : q.num.natAbs * 1000000 = m.natAbs * q.den := by
    have h2 : (q.num * 1000000).natAbs = (m * (q.den : Int)).natAbs := by rw [hq6]
    rwa [Int.natAbs_mul, Int.natAbs_mul,
      (show ((1000000 : Int)).natAbs = 1000000 from rfl),
      Int.natAbs_ofNat] at h2
  have hcast : ((q.num.natAbs * 1000000 : Nat) : Int) = (m.natAbs : Int) * (q.den : Int) := by
    rw [hNat]
    push_cast
    ring
  have hround : roundDecHalfEven ((q.num.natAbs * 1000000 : Nat) : Int) (q.den : Int) =
      (m.natAbs : Int) := by
    rw [hcast]
    exact roundDecHalfEven_mul _ (by omega)
  have hsign : q.num < 0 ↔ m < 0 := by
    constructor
    · intro h
      by_contra hm
      push_neg at hm
      nlinarith
    · intro h
      by_contra hm
      push_neg at hm
      nlinarith
  show fromStringOptional_num (toStringOptional_num (RVal.fin q)) = .ok (RVal.fin q)
  simp only [toStringOptional_num, fromStringOptional_num]
  rw [fromString_num_fixed6 q, hround, Int.toNat_natCast]
  congr 1
  congr 1
  by_cases hm : m < 0
  · rw [if_pos (hsign.mpr hm), hq]
    congr 1
    omega
  · rw [if_neg (fun hc => hm (hsign.mp hc)), hq]
    congr 1
    omega

/- ## Lemmas: when the strtod model performs no conversion -/

theorem strtod_eq_zero_of_no_start (l : List Char) (h : hasNumericStart l = false) :
    strtodModel l = (.fin 0, 0) := by
  rw [hasNumericStart] at h
  simp only [Bool.or_eq_false_iff] at h
  obtain ⟨⟨hinf, hnan⟩, hrest⟩ := h
  have hinf8 : matchesCI ['i', 'n', 'f', 'i', 'n', 'i', 't', 'y']
      (signSplit (l.dropWhile isSpaceChar)).2.2 = false := by
    cases hm : matchesCI ['i', 'n', 'f', 'i', 'n', 'i', 't', 'y']
        (signSplit (l.dropWhile isSpaceChar)).2.2 with
    | false => rfl
    | true =>
      rw [matchesCI_infinity_inf _ hm] at hinf
      simp at hinf
  cases ht : (signSplit (l.dropWhile isSpaceChar)).2.2 with
  | nil =>
    simp only [strtodModel, ht, matchesCI, hexStart, Bool.false_eq_true, if_false,
      List.takeWhile_nil, List.dropWhile_nil, List.length_nil]
    norm_num
  | cons c rest =>
    rw [ht] at hinf hnan hrest hinf8
    by_cases hc : isDigitChar c = true
    · simp [hc] at hrest
    · have hc' : isDigitChar c = false := by
        cases hcb : isDigitChar c
        · rfl
        · exact absurd hcb hc
      have hhex : hexStart (c :: rest) = false := hexStart_false_of_head rest hc'
      by_cases hdot : c = '.'
      · subst hdot
        simp only [hc', Bool.false_eq_true, if_false, if_pos rfl] at hrest
        cases rest with
        | nil =>
          simp only [strtodModel, ht, hinf8, hinf, hnan, hhex, Bool.false_eq_true, if_false,
            List.takeWhile_cons, hc', List.dropWhile_cons, if_pos rfl,
            List.takeWhile_nil, List.dropWhile_nil, List.length_nil]
          norm_num
        | cons d rest2 =>
          simp at hrest
          simp only [strtodModel, ht, hinf8, hinf, hnan, hhex, Bool.false_eq_true, if_false,
            List.takeWhile_cons, hc', List.dropWhile_cons, if_pos rfl, hrest,
            List.length_nil]
          norm_num
      · simp only [strtodModel, ht, hinf8, hinf, hnan, hhex, Bool.false_eq_true, if_false,
          List.takeWhile_cons, hc', List.dropWhile_cons, if_neg hdot, List.length_nil]
        norm_num

theorem strtodTail_snd_ge (mkVal : Bool → List Char → ℚ) (e1 e2 : Char) (consumed : Nat)
    (rest : List Char) : consumed ≤ (strtodTail mkVal e1 e2 consumed rest).2 := by
  rcases rest with _ | ⟨c, r4⟩
  · simp [strtodTail]
  · simp only [strtodTail]
    split_ifs <;> dsimp only <;> omega

theorem strtodTail_snd_pos (mkVal : Bool → List Char → ℚ) (e1 e2 : Char) {consumed : Nat}
    (rest : List Char) (h : 0 < consumed) : (strtodTail mkVal e1 e2 consumed rest).2 ≠ 0 := by
  have := strtodTail_snd_ge mkVal e1 e2 consumed rest
  omega

theorem strtod_snd_ne_zero_of_start (l : List Char) (h : hasNumericStart l = true) :
    (strtodModel l).2 ≠ 0 := by
  by_cases h8 : matchesCI ['i', 'n', 'f', 'i', 'n', 'i', 't', 'y']
      (signSplit (l.dropWhile isSpaceChar)).2.2 = true
  · simp only [strtodModel, h8, if_true]
    omega
  · have h8' : matchesCI ['i', 'n', 'f', 'i', 'n', 'i', 't', 'y']
        (signSplit (l.dropWhile isSpaceChar)).2.2 = false := by
      cases hm : matchesCI ['i', 'n', 'f', 'i', 'n', 'i', 't', 'y']
          (signSplit (l.dropWhile isSpaceChar)).2.2
      · rfl
      · exact absurd hm h8
    by_cases h3 : matchesCI ['i', 'n', 'f'] (signSplit (l.dropWhile isSpaceChar)).2.2 = true
    · simp only [strtodModel, h8', Bool.false_eq_true, if_false, h3, if_true]
      omega
    · have h3' : matchesCI ['i', 'n', 'f'] (signSplit (l.dropWhile isSpaceChar)).2.2 = false := by
        cases hm : matchesCI ['i', 'n', 'f'] (signSplit (l.dropWhile isSpaceChar)).2.2
        · rfl
        · exact absurd hm h3
      by_cases hn3 : matchesCI ['n', 'a', 'n'] (signSplit (l.dropWhile isSpaceChar)).2.2 = true
      · simp only [strtodModel, h8', h3', Bool.false_eq_true, if_false, hn3, if_true]
        omega
      · have hn3' : matchesCI ['n', 'a', 'n'] (signSplit (l.dropWhile isSpaceChar)).2.2 =
            false := by
          cases hm : matchesCI ['n', 'a', 'n'] (signSplit (l.dropWhile isSpaceChar)).2.2
          · rfl
          · exact absurd hm hn3
        by_cases hhx : hexStart (signSplit (l.dropWhile isSpaceChar)).2.2 = true
        · simp only [strtodModel, h8', h3', hn3', Bool.false_eq_true, if_false, hhx, if_true]
          split_ifs
          · omega
          · dsimp only
            apply strtodTail_snd_pos
            omega
        · have hhx' : hexStart (signSplit (l.dropWhile isSpaceChar)).2.2 = false := by
            cases hm : hexStart (signSplit (l.dropWhile isSpaceChar)).2.2
            · rfl
            · exact absurd hm hhx
          rw [hasNumericStart] at h
          simp only [h3', hn3', Bool.false_or] at h
          cases ht : (signSplit (l.dropWhile isSpaceChar)).2.2 with
          | nil =>
            rw [ht] at h
            simp at h
          | cons c rest =>
            rw [ht] at h h8' h3' hn3' hhx'
            by_cases hc : isDigitChar c = true
            · simp only [strtodModel, ht, h8', h3', hn3', hhx', Bool.false_eq_true, if_false,
                List.takeWhile_cons, hc, if_true, List.dropWhile_cons, List.length_cons]
              rw [if_neg (by omega)]
              dsimp only
              apply strtodTail_snd_pos
              omega
            · have hc' : isDigitChar c = false := by
                cases hcb : isDigitChar c
                · rfl
                · exact absurd hcb hc
              by_cases hdot : c = '.'
              · subst hdot
                simp only [hc', Bool.false_eq_true, if_false, if_pos rfl] at h
                cases rest with
                | nil => simp at h
                | cons d rest2 =>
                  simp at h
                  simp only [strtodModel, ht, h8', h3', hn3', hhx', Bool.false_eq_true,
                    if_false, List.takeWhile_cons, hc', List.dropWhile_cons, if_pos rfl, h,
                    if_true, List.length_cons, List.length_nil]
                  rw [if_neg (by omega)]
                  dsimp only
                  apply strtodTail_snd_pos
                  omega
              · simp only [hc', Bool.false_eq_true, if_false, if_neg hdot] at h

/- ## Lemmas: the decValue semantics in field notation -/

theorem decValue_false_eq (ds fs : List Char) :
    decValue false ds fs false [] =
      (digitsToNat ds : ℚ) + (digitsToNat fs : ℚ) / 10 ^ fs.length := by
  simp only [decValue, digitsToNat_nil, Bool.false_eq_true, if_false]
  rw [Rat.divInt_eq_div]
  have hpow : ((10 : ℚ) ^ fs.length) ≠ 0 := by positivity
  push_cast
  field_simp

theorem decValue_true_eq (ds fs : List Char) :
    decValue true ds fs false [] =
      -((digitsToNat ds : ℚ) + (digitsToNat fs : ℚ) / 10 ^ fs.length) := by
  rw [← decValue_false_eq ds fs]
  simp only [decValue, digitsToNat_nil, if_true, Bool.false_eq_true, if_false]
  rw [neg_mul, ← Rat.neg_divInt]

/- ## Claim theorems for the value codec -/

/-- C3: the codec maps absence as follows: for numeric scalar types, encoding
NaN yields the absent optional and decoding the absent optional yields NaN;
for the text scalar type, encoding the empty string yields the absent optional
and decoding the absent optional yields the empty string; encoding a non-NaN
numeric value or a non-empty string yields a present string. -/
theorem codec_absent_states :
    toStringOptional_num RVal.nan = none ∧
    fromStringOptional_num none = .ok RVal.nan ∧
    toStringOptional_string "" = none ∧
    fromStringOptional_string none = .ok "" ∧
    (∀ q : ℚ, ∃ s : String, toStringOptional_num (RVal.fin q) = some s) ∧
    (∀ s : String, s ≠ "" → ∃ t : String, toStringOptional_string s = some t) := by
  refine ⟨rfl, rfl, by decide, rfl, ?_, ?_⟩
  · intro q
    exact ⟨_, rfl⟩
  · intro s hs
    refine ⟨s, ?_⟩
    rw [toStringOptional_string, if_neg]
    rw [String.isEmpty_iff]
    exact hs

/-- Witness for C3 at the non-empty string "a". -/
theorem codec_absent_states_witness :
    ("a" : String) ≠ "" ∧ ∃ t : String, toStringOptional_string "a" = some t :=
  ⟨by decide, codec_absent_states.2.2.2.2.2 "a" (by decide)⟩

/-- C4, counterexample: the numeric round trip fails at the value 2^-30 (a
value exactly representable as a float and as a double): its std::to_string
rendering with six fractional digits is "0.000000", which decodes to 0, not to
2^-30.  The claimed identity decode(encode(v)) = v therefore does not hold for
every representable scalar value. -/
theorem roundtrip_fails_at_small_value :
    fromStringOptional_num (toStringOptional_num (RVal.fin (Rat.divInt 1 1073741824))) =
      .ok (RVal.fin 0) ∧
    fromStringOptional_num (toStringOptional_num (RVal.fin (Rat.divInt 1 1073741824))) ≠
      .ok (RVal.fin (Rat.divInt 1 1073741824)) := by
  constructor
  · decide
  · decide

/-- C4, amended: decode(encode(v)) = v holds for every string value of the
text scalar type (with empty identified with the absent optional), for the
NaN sentinel of the numeric types, and for every numeric value expressible
with at most six fractional decimal digits (the precision std::to_string
keeps); it fails for other representable values, see the counterexample. -/
theorem codec_roundtrip_amended :
    (∀ s : String, fromStringOptional_string (toStringOptional_string s) = .ok s) ∧
    fromStringOptional_num (toStringOptional_num RVal.nan) = .ok RVal.nan ∧
    (∀ m : Int,
      fromStringOptional_num (toStringOptional_num (RVal.fin (Rat.divInt m 1000000))) =
        .ok (RVal.fin (Rat.divInt m 1000000))) := by
  refine ⟨?_, rfl, roundtrip_divInt_million⟩
  intro s
  by_cases hs : s = ""
  · subst hs
    rw [toStringOptional_string]
    rw [if_pos (by decide)]
    rfl
  · rw [toStringOptional_string, if_neg]
    · rfl
    · rw [String.isEmpty_iff]
      exact hs

/-- C5: decoding a present string to a numeric scalar type fails with a
conversion error exactly when the string cannot be parsed as a number (strtod
finds no subject sequence: after optional whitespace and an optional sign it
does not continue with a case-insensitive inf or nan form, with a digit, or
with a decimal point followed by a digit); a well-formed fixed-notation
numeric literal decodes successfully to its parsed value. -/
theorem fromString_num_error_characterization :
    (∀ s : String, (∃ msg, fromString_num s = .error (.conversionError msg)) ↔
        hasNumericStart s.data = false) ∧
    (∀ (neg : Bool) (ds fs : List Char),
      (∀ c ∈ ds, isDigitChar c = true) → (∀ c ∈ fs, isDigitChar c = true) → ds ≠ [] →
      fromString_num ⟨cond neg ['-'] [] ++ ds ++ '.' :: fs⟩ =
        .ok (.fin (decValue neg ds fs false []))) := by
  constructor
  · intro s
    constructor
    · rintro ⟨msg, hmsg⟩
      cases hb : hasNumericStart s.data
      · rfl
      · exfalso
        have hne := strtod_snd_ne_zero_of_start s.data hb
        rw [fromString_num] at hmsg
        by_cases hz : (strtodModel s.data).2 = 0
        · exact hne hz
        · rw [if_neg hz] at hmsg
          cases hmsg
    · intro hns
      refine ⟨"string is not convertible to a floating value", ?_⟩
      rw [fromString_num, strtod_eq_zero_of_no_start s.data hns]
      rfl
  · intro neg ds fs hds hfs hne
    rw [fromString_num]
    have hdata : (⟨cond neg ['-'] [] ++ ds ++ '.' :: fs⟩ : String).data =
        cond neg ['-'] [] ++ ds ++ '.' :: fs := rfl
    rw [hdata, strtod_fixed_literal neg ds fs hds hfs hne]
    rw [if_neg (by cases neg <;> simp [cond])]

/-- Witness for C5 at the literal "12.5". -/
theorem fromString_num_error_characterization_witness :
    ((∀ c ∈ ['1', '2'], isDigitChar c = true) ∧ (∀ c ∈ ['5'], isDigitChar c = true) ∧
      (['1', '2'] : List Char) ≠ []) ∧
    fromString_num ⟨cond false ['-'] [] ++ ['1', '2'] ++ '.' :: ['5']⟩ =
      .ok (.fin (decValue false ['1', '2'] ['5'] false [])) :=
  ⟨⟨by decide, by decide, by decide⟩,
   fromString_num_error_characterization.2 false ['1', '2'] ['5']
     (by decide) (by decide) (by decide)⟩

/-- C6: the key cells use the non-absent codec: ToString of any key value is a
(present) string and never the empty marker, FromString at the string type is
the total identity, and decoding an encoded non-NaN numeric key always
succeeds (the throwing branch is unreachable on rendered keys). -/
theorem key_codec_total :
    (∀ s : String, toString_string s = s ∧ fromString_string s = .ok s) ∧
    (∀ v : RVal, toString_num v ≠ "") ∧
    (∀ q : ℚ, ∃ v : RVal, fromString_num (toString_num (RVal.fin q)) = .ok v) := by
  refine ⟨fun s => ⟨rfl, rfl⟩, ?_, ?_⟩
  · intro v
    cases v with
    | nan => decide
    | inf => decide
    | ninf => decide
    | fin q =>
      intro hEq
      have hdata : fixed6 q = ([] : List Char) := congrArg String.data hEq
      exact fixed6_length_pos q (by rw [hdata]; rfl)
  · intro q
    exact ⟨_, fromString_num_fixed6 q⟩

/- ## Lemmas: the output loop -/

theorem exceptBind_ok {ε α β : Type} (a : α) (f : α → Except ε β) :
    ((Except.ok a : Except ε α) >>= f) = f a := rfl

theorem exceptBind_error {ε α β : Type} (e : ε) (f : α → Except ε β) :
    ((Except.error e : Except ε α) >>= f) = .error e := rfl

theorem mapExcept_ok_length {α β : Type} {f : α → Except KernelError β} :
    ∀ {l : List α} {l' : List β}, mapExcept f l = .ok l' → l'.length = l.length := by
  intro l
  induction l with
  | nil =>
    intro l' h
    rw [mapExcept] at h
    cases h
    rfl
  | cons a t ih =>
    intro l' h
    rw [mapExcept] at h
    cases hfa : f a with
    | error e =>
      rw [hfa, exceptBind_error] at h
      cases h
    | ok b =>
      rw [hfa, exceptBind_ok] at h
      cases hmt : mapExcept f t with
      | error e =>
        rw [hmt, exceptBind_error] at h
        cases h
      | ok bs =>
        rw [hmt, exceptBind_ok] at h
        cases h
        simp [ih hmt]

theorem encodeRow_ok {T : Type} (codec : ScalarCodec T) (kpr cols : Nat) (r : OutputRow)
    (x : Bool × Int × List T × List T) (h : encodeRow codec kpr cols r = .ok x) :
    r.keys.length = kpr ∧ r.vals.length = cols ∧
    mapExcept codec.fromStr r.keys = .ok x.2.2.1 ∧
    mapExcept codec.fromStrOpt r.vals = .ok x.2.2.2 ∧
    x.1 = r.added ∧ x.2.1 = ToSecs r.ts := by
  rw [encodeRow] at h
  by_cases h1 : r.keys.length ≠ kpr
  · rw [if_pos h1] at h
    cases h
  · rw [if_neg h1] at h
    by_cases h2 : r.vals.length ≠ cols
    · rw [if_pos h2] at h
      cases h
    · rw [if_neg h2] at h
      push_neg at h1 h2
      cases hks : mapExcept codec.fromStr r.keys with
      | error e =>
        rw [hks, exceptBind_error] at h
        cases h
      | ok ks =>
        rw [hks, exceptBind_ok] at h
        cases hds : mapExcept codec.fromStrOpt r.vals with
        | error e =>
          rw [hds, exceptBind_error] at h
          cases h
        | ok ds =>
          rw [hds, exceptBind_ok] at h
          cases h
          exact ⟨h1, h2, rfl, rfl, rfl, rfl⟩

theorem materialize_ok_parallel {T : Type} (codec : ScalarCodec T) (kpr cols : Nat) :
    ∀ (outs : List OutputRow) (res : List Bool × List Int × List T × List T),
      materialize codec kpr cols outs = .ok res → ParallelOutputs codec kpr cols outs res := by
  intro outs
  induction outs with
  | nil =>
    intro res h
    rw [materialize] at h
    cases h
    refine ⟨rfl, rfl, by simp, by simp, ?_⟩
    intro i hi
    simp at hi
  | cons r rest ih =>
    intro res h
    rw [materialize] at h
    cases hx : encodeRow codec kpr cols r with
    | error e =>
      rw [hx, exceptBind_error] at h
      cases h
    | ok x =>
      rw [hx, exceptBind_ok] at h
      cases hy : materialize codec kpr cols rest with
      | error e =>
        rw [hy, exceptBind_error] at h
        cases h
      | ok y =>
        rw [hy, exceptBind_ok] at h
        cases h
        obtain ⟨hk, hv, hks, hds, hadd, hts⟩ := encodeRow_ok codec kpr cols r x hx
        obtain ⟨l1, l2, l3, l4, hidx⟩ := ih y hy
        have hxk : x.2.2.1.length = kpr := by rw [mapExcept_ok_length hks, hk]
        have hxd : x.2.2.2.length = cols := by rw [mapExcept_ok_length hds, hv]
        refine ⟨?_, ?_, ?_, ?_, ?_⟩
        · simp [l1]
        · simp [l2]
        · simp [List.length_append, hxk, l3, Nat.succ_mul]
          omega
        · simp [List.length_append, hxd, l4, Nat.succ_mul]
          omega
        · intro i hi
          cases i with
          | zero =>
            refine ⟨by simp [hadd], by simp [hts], ?_, ?_⟩
            · simp only [List.getD_cons_zero, Nat.zero_mul, List.drop_zero]
              rw [List.take_left' hxk]
              exact hks
            · simp only [List.getD_cons_zero, Nat.zero_mul, List.drop_zero]
              rw [List.take_left' hxd]
              exact hds
          | succ i =>
            have hi' : i < rest.length := by
              simp at hi
              omega
            obtain ⟨g1, g2, g3, g4⟩ := hidx i hi'
            refine ⟨by simpa using g1, by simpa using g2, ?_, ?_⟩
            · simp only [List.getD_cons_succ]
              rw [show (i + 1) * kpr = kpr + i * kpr by ring, ← List.drop_drop,
                List.drop_left' hxk]
              exact g3
            · simp only [List.getD_cons_succ]
              rw [show (i + 1) * cols = cols + i * cols by ring, ← List.drop_drop,
                List.drop_left' hxd]
              exact g4

/- ## Lemmas: the input loop -/

theorem foldl_feedStep_trace {E : Type} (M : EngineModel E) :
    ∀ (obs : List Observation) (acc : E × List OutputRow × List EngineCall),
      (obs.foldl (feedStep M) acc).2.2 = acc.2.2 ++ obs.map EngineCall.exec := by
  intro obs
  induction obs with
  | nil =>
    intro acc
    simp
  | cons o t ih =>
    intro acc
    rw [List.foldl_cons, ih]
    simp [feedStep, List.append_assoc]

theorem runAll_trace {E : Type} (M : EngineModel E) (e : E) (obs : List Observation) :
    (runAll M e obs).2 = obs.map EngineCall.exec ++ [EngineCall.flushCall] := by
  simp only [runAll, foldl_feedStep_trace]
  simp

/- ## Claim theorems for the batch adapter -/

/-- C7: for a batch of `rows` input rows the adapter makes exactly one engine
call per input row index, in increasing index order, each passing the
observation built from that row (its timestamp, its key cells through
ToString, its data cells through ToStringOptional), and after the last of
these execute calls exactly one flush call, with nothing after it. -/
theorem adapter_call_sequence {E T : Type} (M : EngineModel E) (e : E) (codec : ScalarCodec T)
    (rows kpr cols : Nat) (timesData : List Int) (keysData dataData : List T) :
    (implFeed M e codec rows kpr cols timesData keysData dataData).2 =
      (List.range rows).map (fun row => EngineCall.exec
        { ts := ToTimePoint (timesData.getD row 0),
          keys := ((keysData.drop (row * kpr)).take kpr).map codec.toStr,
          vals := ((dataData.drop (row * cols)).take cols).map codec.toStrOpt }) ++
      [EngineCall.flushCall] := by
  rw [implFeed, runAll_trace, List.map_map]
  rfl

/-- C8: when the transform succeeds, the four output arrays are parallel views
of the buffer of rows emitted through the callback during the execute calls
and the final flush, in emission order: their first dimension is the number of
emitted rows (known only after flush), the i-th added flag and timestamp come
from the i-th emitted row, the i-th row of the flattened key matrix is the
i-th emitted row's keys re-encoded through FromString, and the i-th row of the
flattened data matrix is its values re-encoded through FromStringOptional
(absent values encoding to the type's absent sentinel). -/
theorem outputs_parallel_to_buffer {E T : Type} (M : EngineModel E) (e : E)
    (codec : ScalarCodec T) (rows kpr cols : Nat) (timesData : List Int)
    (keysData dataData : List T) (res : List Bool × List Int × List T × List T)
    (h : TimeSeriesImputerTransformerImpl M e codec rows kpr cols timesData keysData dataData =
      .ok res) :
    ParallelOutputs codec kpr cols
      (implFeed M e codec rows kpr cols timesData keysData dataData).1 res :=
  materialize_ok_parallel codec kpr cols _ res h

/-- Witness for C8: the spec's end-to-end example (two rows of one key and one
column, timestamps 0 and 2, cadence 1) through the string instantiation. -/
theorem outputs_parallel_to_buffer_witness :
    TimeSeriesImputerTransformerImpl specEngineModel ⟨1, [], []⟩ stringCodec 2 1 1
        [0, 2] ["A", "A"] ["5", ""] =
      .ok ([false, true, false], [0, 1, 2], ["A", "A", "A"], ["5", "5", "5"]) ∧
    ParallelOutputs stringCodec 1 1
      (implFeed specEngineModel ⟨1, [], []⟩ stringCodec 2 1 1 [0, 2] ["A", "A"] ["5", ""]).1
      ([false, true, false], [0, 1, 2], ["A", "A", "A"], ["5", "5", "5"]) :=
  ⟨by decide,
   outputs_parallel_to_buffer specEngineModel ⟨1, [], []⟩ stringCodec 2 1 1 [0, 2] ["A", "A"]
     ["5", ""] ([false, true, false], [0, 1, 2], ["A", "A", "A"], ["5", "5", "5"]) (by decide)⟩

/- ## Lemmas: the string codec never fails a conversion -/

theorem mapExcept_fromString_string (l : List String) :
    mapExcept stringCodec.fromStr l = .ok l := by
  induction l with
  | nil => rfl
  | cons a t ih =>
    rw [mapExcept]
    show ((Except.ok a : Except KernelError String) >>= _) = _
    rw [exceptBind_ok, ih, exceptBind_ok]

theorem mapExcept_fromStrOpt_string (l : List (Option String)) :
    mapExcept stringCodec.fromStrOpt l = .ok (l.map (fun o => o.getD "")) := by
  induction l with
  | nil => rfl
  | cons a t ih =>
    rw [mapExcept]
    cases a with
    | none =>
      show ((Except.ok "" : Except KernelError String) >>= _) = _
      rw [exceptBind_ok, ih, exceptBind_ok]
      rfl
    | some s =>
      show ((Except.ok s : Except KernelError String) >>= _) = _
      rw [exceptBind_ok, ih, exceptBind_ok]
      rfl

theorem encodeRow_string_ok {kpr cols : Nat} {r : OutputRow}
    (h1 : r.keys.length = kpr) (h2 : r.vals.length = cols) :
    encodeRow stringCodec kpr cols r =
      .ok (r.added, ToSecs r.ts, r.keys, r.vals.map (fun o => o.getD "")) := by
  rw [encodeRow, if_neg (by omega), if_neg (by omega), mapExcept_fromString_string,
    exceptBind_ok, mapExcept_fromStrOpt_string, exceptBind_ok]

theorem encodeRow_string_bad {kpr cols : Nat} {r : OutputRow}
    (h : r.keys.length ≠ kpr ∨ r.vals.length ≠ cols) :
    ∃ msg, encodeRow stringCodec kpr cols r = .error (.schemaError msg) := by
  rw [encodeRow]
  by_cases h1 : r.keys.length ≠ kpr
  · exact ⟨_, by rw [if_pos h1]⟩
  · have h2 : r.vals.length ≠ cols := by tauto
    exact ⟨_, by rw [if_neg h1, if_pos h2]⟩

theorem encodeRow_string_error_schema {kpr cols : Nat} {r : OutputRow} {e : KernelError}
    (h : encodeRow stringCodec kpr cols r = .error e) : ∃ msg, e = .schemaError msg := by
  by_cases h1 : r.keys.length = kpr
  · by_cases h2 : r.vals.length = cols
    · rw [encodeRow_string_ok h1 h2] at h
      cases h
    · obtain ⟨msg, hm⟩ := @encodeRow_string_bad kpr cols r (Or.inr h2)
      rw [hm] at h
      cases h
      exact ⟨msg, rfl⟩
  · obtain ⟨msg, hm⟩ := @encodeRow_string_bad kpr cols r (Or.inl h1)
    rw [hm] at h
    cases h
    exact ⟨msg, rfl⟩

theorem materialize_string_error_schema (kpr cols : Nat) (outs : List OutputRow) :
    ∀ (e : KernelError), materialize stringCodec kpr cols outs = .error e →
      ∃ msg, e = .schemaError msg := by
  induction outs with
  | nil =>
    intro e h
    rw [materialize] at h
    cases h
  | cons r rest ih =>
    intro e h
    rw [materialize] at h
    cases hx : encodeRow stringCodec kpr cols r with
    | error e2 =>
      rw [hx, exceptBind_error] at h
      cases h
      exact encodeRow_string_error_schema hx
    | ok x =>
      rw [hx, exceptBind_ok] at h
      cases hy : materialize stringCodec kpr cols rest with
      | error e2 =>
        rw [hy, exceptBind_error] at h
        cases h
        exact ih _ hy
      | ok y =>
        rw [hy, exceptBind_ok] at h
        cases h

/-- C2: before an emitted row is encoded into the output arrays, its key
arity and its value arity are enforced; a row with a wrong arity makes the
whole materialization fail with a schema consistency error, so every row of a
successful materialization has exactly kpr keys and cols values. -/
theorem emitted_row_arity_enforced (kpr cols : Nat) (outs : List OutputRow) :
    ((∃ r ∈ outs, r.keys.length ≠ kpr ∨ r.vals.length ≠ cols) →
      ∃ msg, materialize stringCodec kpr cols outs = .error (.schemaError msg)) ∧
    (∀ res, materialize stringCodec kpr cols outs = .ok res →
      ∀ r ∈ outs, r.keys.length = kpr ∧ r.vals.length = cols) := by
  constructor
  · induction outs with
    | nil =>
      rintro ⟨r, hr, _⟩
      simp at hr
    | cons q rest ih =>
      rintro ⟨r, hr, hbad⟩
      rw [materialize]
      by_cases hq : q.keys.length = kpr ∧ q.vals.length = cols
      · rw [encodeRow_string_ok hq.1 hq.2, exceptBind_ok]
        have hr' : r ∈ rest := by
          rcases List.mem_cons.mp hr with rfl | hm
          · exact absurd hbad (by tauto)
          · exact hm
        obtain ⟨msg, hmsg⟩ := ih ⟨r, hr', hbad⟩
        rw [hmsg, exceptBind_error]
        exact ⟨msg, rfl⟩
      · obtain ⟨msg, hmsg⟩ :=
          @encodeRow_string_bad kpr cols q (by tauto)
        rw [hmsg, exceptBind_error]
        exact ⟨msg, rfl⟩
  · induction outs with
    | nil =>
      intro res h r hr
      simp at hr
    | cons q rest ih =>
      intro res h r hr
      rw [materialize] at h
      cases hx : encodeRow stringCodec kpr cols q with
      | error e =>
        rw [hx, exceptBind_error] at h
        cases h
      | ok x =>
        rw [hx, exceptBind_ok] at h
        cases hy : materialize stringCodec kpr cols rest with
        | error e =>
          rw [hy, exceptBind_error] at h
          cases h
        | ok y =>
          obtain ⟨h1, h2, _⟩ := encodeRow_ok _ _ _ _ _ hx
          rcases List.mem_cons.mp hr with rfl | hm
          · exact ⟨h1, h2⟩
          · exact ih y hy r hm

/-- Witness for C2 at a single emitted row with one key where two are
expected. -/
theorem emitted_row_arity_enforced_witness :
    (∃ r ∈ [(⟨false, 0, ["k"], [some "v"]⟩ : OutputRow)],
      r.keys.length ≠ 2 ∨ r.vals.length ≠ 1) ∧
    ∃ msg, materialize stringCodec 2 1 [(⟨false, 0, ["k"], [some "v"]⟩ : OutputRow)] =
      .error (.schemaError msg) :=
  ⟨by decide,
   (emitted_row_arity_enforced 2 1 [(⟨false, 0, ["k"], [some "v"]⟩ : OutputRow)]).1 (by decide)⟩

/- ## Lemmas: shape validation -/

theorem CheckBatches_ok {rows : Nat} {dims : List Nat}
    (h1 : dims.length = 2) (h2 : rows = dims.headD 0) :
    CheckBatches rows dims = .ok () := by
  rw [CheckBatches, if_pos h1, if_pos h2]

theorem CheckBatches_error_ndim {rows : Nat} {dims : List Nat} (h1 : dims.length ≠ 2) :
    CheckBatches rows dims = .error (.shapeError "Expect shape of [R][C]") := by
  rw [CheckBatches, if_neg h1]

theorem CheckBatches_error_rows {rows : Nat} {dims : List Nat}
    (h1 : dims.length = 2) (h2 : rows ≠ dims.headD 0) :
    CheckBatches rows dims = .error (.shapeError "Number of rows does not match") := by
  rw [CheckBatches, if_pos h1, if_neg h2]

theorem compute_cases {E : Type} (M : EngineModel E) (e : E) (inp : ComputeInputs) :
    ((inp.timesDims.length = 1 ∧
      inp.keysDims.length = 2 ∧ inp.timesDims.headD 0 = inp.keysDims.headD 0 ∧
      inp.dataDims.length = 2 ∧ inp.timesDims.headD 0 = inp.dataDims.headD 0 ∧
      inp.keysType = inp.dataType) ∧
     Compute M e inp =
       TimeSeriesImputerTransformerImpl M e stringCodec (inp.timesDims.headD 0)
         (inp.keysDims.getD 1 0) (inp.dataDims.getD 1 0)
         inp.timesData inp.keysData inp.dataData) ∨
    (¬ (inp.timesDims.length = 1 ∧
        inp.keysDims.length = 2 ∧ inp.timesDims.headD 0 = inp.keysDims.headD 0 ∧
        inp.dataDims.length = 2 ∧ inp.timesDims.headD 0 = inp.dataDims.headD 0 ∧
        inp.keysType = inp.dataType) ∧
     ∃ msg, Compute M e inp = .error (.shapeError msg)) := by
  by_cases hT : inp.timesDims.length = 1
  · by_cases hK2 : inp.keysDims.length = 2
    · by_cases hKr : inp.timesDims.headD 0 = inp.keysDims.headD 0
      · by_cases hD2 : inp.dataDims.length = 2
        · by_cases hDr : inp.timesDims.headD 0 = inp.dataDims.headD 0
          · by_cases hTy : inp.keysType = inp.dataType
            · left
              refine ⟨⟨hT, hK2, hKr, hD2, hDr, hTy⟩, ?_⟩
              simp only [Compute, if_pos hT, CheckBatches_ok hK2 hKr, exceptBind_ok,
                CheckBatches_ok hD2 hDr, if_pos hTy]
            · right
              refine ⟨by tauto, ?_⟩
              simp only [Compute, if_pos hT, CheckBatches_ok hK2 hKr, exceptBind_ok,
                CheckBatches_ok hD2 hDr, if_neg hTy]
              exact ⟨_, rfl⟩
          · right
            refine ⟨by tauto, ?_⟩
            simp only [Compute, if_pos hT, CheckBatches_ok hK2 hKr, exceptBind_ok,
              CheckBatches_error_rows hD2 hDr, exceptBind_error]
            exact ⟨_, rfl⟩
        · right
          refine ⟨by tauto, ?_⟩
          simp only [Compute, if_pos hT, CheckBatches_ok hK2 hKr, exceptBind_ok,
            CheckBatches_error_ndim hD2, exceptBind_error]
          exact ⟨_, rfl⟩
      · right
        refine ⟨by tauto, ?_⟩
        simp only [Compute, if_pos hT, CheckBatches_error_rows hK2 hKr, exceptBind_error]
        exact ⟨_, rfl⟩
    · right
      refine ⟨by tauto, ?_⟩
      simp only [Compute, if_pos hT, CheckBatches_error_ndim hK2, exceptBind_error]
      exact ⟨_, rfl⟩
  · right
    refine ⟨by tauto, ?_⟩
    simp only [Compute, if_neg hT]
    exact ⟨_, rfl⟩

/- ## Claim theorems for Compute and the registration -/

/-- C1: Compute returns a shape error (and hence produces no output) exactly
when the input tensors are malformed: the timestamps tensor is not
one-dimensional, or the key matrix or the data matrix is not two-dimensional
with first dimension equal to the number of rows, or the key element type
differs from the data element type.  When validation passes, Compute runs the
transform, whose own failures are never shape errors. -/
theorem compute_shape_validation {E : Type} (M : EngineModel E) (e : E) (inp : ComputeInputs) :
    (∃ msg, Compute M e inp = .error (.shapeError msg)) ↔
      ¬ (inp.timesDims.length = 1 ∧
         inp.keysDims.length = 2 ∧ inp.timesDims.headD 0 = inp.keysDims.headD 0 ∧
         inp.dataDims.length = 2 ∧ inp.timesDims.headD 0 = inp.dataDims.headD 0 ∧
         inp.keysType = inp.dataType) := by
  rcases compute_cases M e inp with ⟨hC, heq⟩ | ⟨hnC, msg, herr⟩
  · constructor
    · rintro ⟨msg, hmsg⟩
      rw [heq, TimeSeriesImputerTransformerImpl] at hmsg
      obtain ⟨m2, hm2⟩ := materialize_string_error_schema _ _ _ _ hmsg
      cases hm2
    · intro hnC
      exact absurd hC hnC
  · constructor
    · intro _
      exact hnC
    · intro _
      exact ⟨msg, herr⟩

/-- C10: the registered kernel constrains the key and data tensors to the
string element type and Compute always runs the std::string instantiation of
the transform, whose FromString and FromStringOptional are total; hence no
invocation of the registered kernel can ever fail with a conversion error. -/
theorem registered_kernel_no_conversion_error :
    timeSeriesImputerKernelConstraints.t2 = ElemType.str ∧
    ∀ (E : Type) (M : EngineModel E) (e : E) (inp : ComputeInputs) (err : KernelError)
      (msg : String), Compute M e inp = .error err → err ≠ KernelError.conversionError msg := by
  refine ⟨rfl, ?_⟩
  intro E M e inp err msg herr
  rcases compute_cases M e inp with ⟨_, heq⟩ | ⟨_, msg2, herr2⟩
  · rw [heq, TimeSeriesImputerTransformerImpl] at herr
    obtain ⟨m2, hm2⟩ := materialize_string_error_schema _ _ _ _ herr
    rw [hm2]
    intro hcontra
    cases hcontra
  · rw [herr] at herr2
    cases herr2
    intro hcontra
    cases hcontra

/-- Witness for C10 at an input whose timestamps tensor is two-dimensional:
Compute fails with a shape error, which is not a conversion error. -/
theorem registered_kernel_no_conversion_error_witness :
    Compute nullEngineModel () ⟨[2, 3], [], [], ElemType.str, [], [], ElemType.str, []⟩ =
      .error (.shapeError "Times must have shape [B][R] or [R]") ∧
    KernelError.shapeError "Times must have shape [B][R] or [R]" ≠
      KernelError.conversionError "x" :=
  ⟨by decide,
   registered_kernel_no_conversion_error.2 Unit nullEngineModel ()
     ⟨[2, 3], [], [], ElemType.str, [], [], ElemType.str, []⟩
     (.shapeError "Times must have shape [B][R] or [R]") "x" (by decide)⟩

/- ## Lemmas: the spec engine -/

theorem nonDecreasing_iff (l : List Int) :
    nonDecreasing l = true ↔ List.Chain' (· ≤ ·) l := by
  induction l with
  | nil => simp [nonDecreasing]
  | cons a t ih =>
    cases t with
    | nil => simp [nonDecreasing]
    | cons b t2 =>
      simp [nonDecreasing, List.chain'_cons, ih, Bool.and_eq_true, decide_eq_true_eq]

theorem mem_insertByTs {a r : OutputRow} :
    ∀ {l : List OutputRow}, a ∈ insertByTs r l → a = r ∨ a ∈ l := by
  intro l
  induction l with
  | nil =>
    intro ha
    simp [insertByTs] at ha
    exact Or.inl ha
  | cons x rest ih =>
    intro ha
    rw [insertByTs] at ha
    by_cases hx : x.ts ≤ r.ts
    · rw [if_pos hx] at ha
      rcases List.mem_cons.mp ha with rfl | ha2
      · exact Or.inr (by simp)
      · rcases ih ha2 with rfl | ha3
        · exact Or.inl rfl
        · exact Or.inr (by simp [ha3])
    · rw [if_neg hx] at ha
      rcases List.mem_cons.mp ha with rfl | ha2
      · exact Or.inl rfl
      · exact Or.inr ha2

theorem insertByTs_sorted (r : OutputRow) :
    ∀ l : List OutputRow, List.Pairwise (fun a b : OutputRow => a.ts ≤ b.ts) l →
      List.Pairwise (fun a b : OutputRow => a.ts ≤ b.ts) (insertByTs r l) := by
  intro l
  induction l with
  | nil =>
    intro _
    simp [insertByTs]
  | cons x rest ih =>
    intro hp
    rw [List.pairwise_cons] at hp
    obtain ⟨hx_all, hrest⟩ := hp
    rw [insertByTs]
    by_cases hx : x.ts ≤ r.ts
    · rw [if_pos hx, List.pairwise_cons]
      refine ⟨?_, ih hrest⟩
      intro b hb
      rcases mem_insertByTs hb with rfl | hb2
      · exact hx
      · exact hx_all b hb2
    · rw [if_neg hx, List.pairwise_cons]
      refine ⟨?_, ?_⟩
      · intro b hb
        rcases List.mem_cons.mp hb with rfl | hb2
        · omega
        · have := hx_all b hb2
          omega
      · rw [List.pairwise_cons]
        exact ⟨hx_all, hrest⟩

theorem sortByTs_sorted_aux :
    ∀ (l acc : List OutputRow),
      List.Pairwise (fun a b : OutputRow => a.ts ≤ b.ts) acc →
      List.Pairwise (fun a b : OutputRow => a.ts ≤ b.ts)
        (l.foldl (fun acc r => insertByTs r acc) acc) := by
  intro l
  induction l with
  | nil =>
    intro acc h
    simpa using h
  | cons r rest ih =>
    intro acc h
    rw [List.foldl_cons]
    exact ih _ (insertByTs_sorted r acc h)

theorem sortByTs_sorted (l : List OutputRow) :
    List.Pairwise (fun a b : OutputRow => a.ts ≤ b.ts) (sortByTs l) :=
  sortByTs_sorted_aux l [] (by simp)

theorem specEngine_execute_snd (e : SpecEngine) (o : Observation) :
    (SpecEngine.execute e o).2 = [] := by
  rw [SpecEngine.execute]
  cases findGroup e.groups o.keys <;> rfl

theorem foldl_feedStep_outs (obs : List Observation) :
    ∀ (e : SpecEngine) (outs : List OutputRow) (tr : List EngineCall),
      (obs.foldl (feedStep specEngineModel) (e, outs, tr)).2.1 = outs := by
  induction obs with
  | nil =>
    intro e outs tr
    rfl
  | cons o rest ih =>
    intro e outs tr
    rw [List.foldl_cons]
    simp only [feedStep, specEngineModel, specEngine_execute_snd, List.append_nil]
    exact ih _ _ _

/- ## Claim theorem for output monotonicity -/

/-- C9: for every invocation whose input observations arrive in non-decreasing
timestamp order, the timestamps of the emitted output rows are non-decreasing
across the entire output sequence, synthesized and real rows of all key-groups
interleaved: the engine holds every produced row in its look-ahead buffer and
flush releases them all in timestamp order, with ties broken by emission
order. -/
theorem output_timestamps_monotone (c : Nat) (obs : List Observation)
    (_hmono : List.Chain' (· ≤ ·) (obs.map Observation.ts)) :
    List.Chain' (· ≤ ·)
      (((runAll specEngineModel ⟨c, [], []⟩ obs).1).map OutputRow.ts) := by
  rw [List.chain'_iff_pairwise]
  have houts : (obs.foldl (feedStep specEngineModel)
      ((⟨c, [], []⟩ : SpecEngine), [], [])).2.1 = ([] : List OutputRow) :=
    foldl_feedStep_outs obs _ _ _
  have hfl : ∀ st : SpecEngine, (specEngineModel.flush st).2 = sortByTs st.buffer :=
    fun st => rfl
  simp only [runAll]
  rw [houts, hfl, List.nil_append]
  exact List.Pairwise.map _ (fun a b hab => hab) (sortByTs_sorted _)

/-- Witness for C9: three observations over two interleaved key-groups (group
A at t=0, group B at t=5, group A again at t=6 with an absent value), cadence
1: the input timestamps are non-decreasing, and so are the timestamps of the
eight emitted rows, the five gap rows of group A included. -/
theorem output_timestamps_monotone_witness :
    List.Chain' (· ≤ ·)
      (([⟨0, ["A"], [some "5"]⟩, ⟨5, ["B"], [some "7"]⟩, ⟨6, ["A"], [none]⟩] :
        List Observation).map Observation.ts) ∧
    List.Chain' (· ≤ ·)
      (((runAll specEngineModel ⟨1, [], []⟩
        ([⟨0, ["A"], [some "5"]⟩, ⟨5, ["B"], [some "7"]⟩, ⟨6, ["A"], [none]⟩] :
          List Observation)).1).map OutputRow.ts) :=
  ⟨by rw [← nonDecreasing_iff]; decide,
   output_timestamps_monotone 1
     ([⟨0, ["A"], [some "5"]⟩, ⟨5, ["B"], [some "7"]⟩, ⟨6, ["A"], [none]⟩] :
       List Observation)
     (by rw [← nonDecreasing_iff]; decide)⟩


/-- Witness for C1 at an input whose key matrix is one-dimensional. -/
theorem compute_shape_validation_witness :
    ∃ msg, Compute nullEngineModel ()
      ⟨[2], [0, 1], [3], ElemType.str, ["a", "b", "c"], [2, 1], ElemType.str, ["x", "y"]⟩ =
      .error (.shapeError msg) :=
  (compute_shape_validation nullEngineModel ()
    ⟨[2], [0, 1], [3], ElemType.str, ["a", "b", "c"], [2, 1], ElemType.str, ["x", "y"]⟩).mpr
    (by decide)
